import Mathlib

/-!
Shallow embedding of the Kuona earnings-call feature pipeline.

Source files embedded:
* `nlp/sentiment.py`   — lexicons, tokenizer, sentence splitter, `compute_features`
* `data/prices.py`     — `get_simple_returns` (the price series itself is an
  external input, so the fetched frame is a parameter here)
* `data/transcripts_store.py` — `list_events`
* `api/main.py`        — the backtest aggregator (correlation and median split)

Python floats are modelled by exact rationals `ℚ`; the one square root in the
pipeline (`pstdev`, and the Pearson denominator) is taken in `ℝ`.
Python `None` becomes `Option.none`.
-/

namespace Kuona

/-! ### nlp/sentiment.py : lexicons -/

def POSITIVE_WORDS : List String :=
  ["strong", "growth", "record", "robust", "confident",
   "positive", "improved", "solid", "ahead"]

def NEGATIVE_WORDS : List String :=
  ["weak", "miss", "decline", "soft", "headwinds",
   "pressure", "downturn", "negative", "risk"]

def UNCERTAINTY_WORDS : List String :=
  ["uncertain", "uncertainty", "risk", "risks", "volatility",
   "might", "could", "may", "headwinds", "challenge", "pressure"]

/-! ### nlp/sentiment.py : segmentation

`_tokenize` lowercases the text and splits on runs of `[^a-zA-Z]+`; after
lowering, the retained characters are exactly the ASCII letters.  We model the
split as a left-to-right scan accumulating maximal runs of letters. -/

def isAsciiLetterChar (c : Char) : Bool :=
  (97 ≤ c.toNat && c.toNat ≤ 122) || (65 ≤ c.toNat && c.toNat ≤ 90)

def tokenizeChars : List Char → List Char → List String
  | [], acc => if acc.isEmpty then [] else [String.mk acc.reverse]
  | c :: rest, acc =>
    if isAsciiLetterChar c then tokenizeChars rest (c :: acc)
    else if acc.isEmpty then tokenizeChars rest []
    else String.mk acc.reverse :: tokenizeChars rest []

def tokenize (s : String) : List String :=
  tokenizeChars (s.data.map Char.toLower) []

/-- The characters stripped by Python `str.strip()` that can occur in this
pipeline (space, tab, newline, carriage return, vertical tab, form feed). -/
def isPySpace (c : Char) : Bool :=
  c == ' ' || c == '\t' || c == '\n' || c == '\r' || c.toNat == 11 || c.toNat == 12

def pyStrip (s : String) : String :=
  String.mk (((s.data.dropWhile isPySpace).reverse.dropWhile isPySpace).reverse)

def isSentenceDelim (c : Char) : Bool :=
  c == '.' || c == '!' || c == '?'

/-- Raw fragments of `re.split(r"[.!?]+", text)`.  We cut at every single
delimiter; a run of delimiters then yields extra empty fragments, which the
whitespace filter below discards exactly as `re.split` on the `+`-run would
have merged them. -/
def splitSentencesChars : List Char → List Char → List String
  | [], acc => [String.mk acc.reverse]
  | c :: rest, acc =>
    if isSentenceDelim c then String.mk acc.reverse :: splitSentencesChars rest []
    else splitSentencesChars rest (c :: acc)

def splitSentences (s : String) : List String :=
  ((splitSentencesChars s.data []).map pyStrip).filter (fun t => !t.isEmpty)

/-! ### nlp/sentiment.py : scoring -/

def sentenceSentiment (tokens : List String) : ℚ :=
  if tokens.isEmpty then 0
  else
    (((tokens.countP (fun t => t ∈ POSITIVE_WORDS)) : ℤ) -
      ((tokens.countP (fun t => t ∈ NEGATIVE_WORDS)) : ℤ) : ℚ) / (tokens.length : ℚ)

def listMean (xs : List ℚ) : ℚ := xs.sum / (xs.length : ℚ)

/-- Population variance, i.e. the square of `statistics.pstdev`. -/
def listPVariance (xs : List ℚ) : ℚ :=
  ((xs.map (fun x => (x - listMean xs) ^ 2)).sum) / (xs.length : ℚ)

/-- The per-sentence scores gathered by the loop in `compute_features`:
one score per sentence whose token list is non-empty. -/
def sentenceScores (text : String) : List ℚ :=
  (((splitSentences text).map tokenize).filter (fun ts => !ts.isEmpty)).map
    sentenceSentiment

/-- All tokens of the transcript (`all_tokens` in `compute_features`). -/
def allTokens (text : String) : List String :=
  ((splitSentences text).map tokenize).flatten

structure Features where
  token_count : ℕ
  sentiment_mean : ℚ
  /-- the square of the reported `sentiment_std` (`pstdev` is its square root,
  taken in `ℝ` by `sentimentStd` below) -/
  sentiment_var : ℚ
  uncertainty_score : ℚ

def computeFeatures (text : String) : Features :=
  let scores := sentenceScores text
  let token_count := (allTokens text).length
  { token_count := token_count
    sentiment_mean := if scores.isEmpty then 0 else listMean scores
    sentiment_var := if 1 < scores.length then listPVariance scores else 0
    uncertainty_score :=
      if 0 < token_count then
        (((allTokens text).countP (fun t => t ∈ UNCERTAINTY_WORDS)) : ℚ) /
          (token_count : ℚ)
      else 0 }

noncomputable def sentimentStd (text : String) : ℝ :=
  Real.sqrt ((computeFeatures text).sentiment_var : ℝ)

/-- The end-to-end example transcript of the spec. -/
def exampleTranscript : String :=
  "Strong growth this quarter. However, risks and uncertainty remain."

/-! ### data/prices.py : get_simple_returns

`yf.download` is the external price provider: its result (a date-indexed frame
of closes) is the `rows` parameter.  Dates are modelled as integer day numbers
(`datetime` arithmetic with `timedelta(days=h)` is integer addition). -/

structure PriceRow where
  date : ℤ
  close : ℚ
deriving DecidableEq

/-- `df.sort_index()` followed by `df[df.index >= start]` (with
`start = call_date`). -/
def afterCallRows (rows : List PriceRow) (callDate : ℤ) : List PriceRow :=
  (rows.mergeSort (fun a b => decide (a.date ≤ b.date))).filter
    (fun r => decide (callDate ≤ r.date))

/-- The close of the first row on or after the call date (`p0` in the source),
if any. -/
def anchorClose (rows : List PriceRow) (callDate : ℤ) : Option ℚ :=
  (afterCallRows rows callDate).head?.map PriceRow.close

/-- The value stored for one horizon `h`: the loop body of
`get_simple_returns`.  The source stores `None` when no target row exists and
`float((ph - p0) / p0)` otherwise; both live in `Option ℚ` here. -/
def horizonReturn (rows : List PriceRow) (callDate : ℤ) (h : ℕ) : Option ℚ :=
  match afterCallRows rows callDate with
  | [] => none
  | p0row :: _ =>
    ((afterCallRows rows callDate).filter
        (fun r => decide (callDate + (h : ℤ) ≤ r.date))).head?.map
      (fun t => (t.close - p0row.close) / p0row.close)

/-- `get_simple_returns`, with the fetched frame as input.  The returned dict
keyed by `"return_{h}d"` becomes an association list keyed by `h`. -/
def getSimpleReturns (rows : List PriceRow) (callDate : ℤ) (horizons : List ℕ) :
    Option (List (ℕ × Option ℚ)) :=
  if rows.isEmpty then none
  else
    match afterCallRows rows callDate with
    | [] => none
    | _ :: _ => some (horizons.map (fun h => (h, horizonReturn rows callDate h)))

/-- The spec's return-alignment example: closes 100 at day 0, 102 at day 1,
99 at day 3. -/
def exRows : List PriceRow := [⟨0, 100⟩, ⟨1, 102⟩, ⟨3, 99⟩]

/-- A series whose first (and only on-call-date) close is `0`. -/
def zeroAnchorRows : List PriceRow := [⟨0, 0⟩, ⟨1, 5⟩]

/-- A series whose anchor close and 1-day target close are both `0`: there
the code's stored value is `0.0 / 0.0`, a float NaN. -/
def nanRows : List PriceRow := [⟨0, 0⟩, ⟨1, 0⟩]

/-! ### api/main.py : backtest aggregator

An event enters the aggregator as its `sentiment_mean` together with
`returns.get("return_3d")`; events whose 3-day return is `None` are skipped
by the `continue`. -/

def filterPairs (events : List (ℚ × Option ℚ)) : List (ℚ × ℚ) :=
  events.filterMap (fun e => e.2.map (fun r => (e.1, r)))

/-- `num` of the Pearson formula: `Σ (s - mean_s) * (r - mean_r)`. -/
def corrNum (svals rvals : List ℚ) : ℚ :=
  ((svals.zip rvals).map
    (fun p => (p.1 - listMean svals) * (p.2 - listMean rvals))).sum

/-- `den_s` / `den_r` of the Pearson formula: `Σ (x - mean_x)^2`. -/
def sqDev (xs : List ℚ) : ℚ :=
  (xs.map (fun x => (x - listMean xs) ^ 2)).sum

/-- The correlation block of `backtest_earnings`.  The square roots
`den**0.5` are taken in `ℝ`; a quotient of real numbers is always a real
number, so the float `isnan` normalization can never fire here and is
subsumed by the two guards. -/
noncomputable def pearsonCorr (svals rvals : List ℚ) : Option ℝ :=
  if svals.length < 2 then none
  else if sqDev svals = 0 ∨ sqDev rvals = 0 then none
  else some ((corrNum svals rvals : ℝ) /
    (Real.sqrt (sqDev svals) * Real.sqrt (sqDev rvals)))

noncomputable def backtestCorr (events : List (ℚ × Option ℚ)) : Option ℝ :=
  pearsonCorr ((filterPairs events).map Prod.fst)
    ((filterPairs events).map Prod.snd)

/-- `sorted(zip(sentiment_vals, ret3_vals), key=lambda x: x[0])` — Python's
`sorted` is a stable merge sort. -/
def sortedPairs (pairs : List (ℚ × ℚ)) : List (ℚ × ℚ) :=
  pairs.mergeSort (fun a b => decide (a.1 ≤ b.1))

def lowBucket (pairs : List (ℚ × ℚ)) : List (ℚ × ℚ) :=
  (sortedPairs pairs).take (pairs.length / 2)

def highBucket (pairs : List (ℚ × ℚ)) : List (ℚ × ℚ) :=
  (sortedPairs pairs).drop (pairs.length / 2)

structure BucketStats where
  count : ℕ
  avg_return_3d : Option ℚ
deriving DecidableEq

/-- `_bucket_stats` in `backtest_earnings`. -/
def bucketStats (bucket : List (ℚ × ℚ)) : BucketStats :=
  if bucket.isEmpty then ⟨0, none⟩
  else ⟨bucket.length, some (listMean (bucket.map Prod.snd))⟩

/-! ### data/transcripts_store.py : list_events

The in-memory store `_TRANSCRIPTS` is a dict iterated in insertion order; it
is the `store` parameter here, in that order.  Call dates are integer day
numbers as above. -/

structure StoredEvent where
  ticker : String
  callDate : ℤ
  text : String
deriving DecidableEq

/-- `ticker_set = {t.upper() for t in tickers} if tickers else None`: Python
truthiness makes both `None` and the empty list fall to `None`. -/
def tickerSetOf (tickers : Option (List String)) : Option (List String) :=
  match tickers with
  | none => none
  | some ts => if ts.isEmpty then none else some (ts.map String.toUpper)

def eventKeep (tickers : Option (List String)) (startDate endDate : Option ℤ)
    (e : StoredEvent) : Bool :=
  (match tickerSetOf tickers with
   | none => true
   | some s => decide (e.ticker.toUpper ∈ s)) &&
  (match startDate with
   | none => true
   | some d => decide (d ≤ e.callDate)) &&
  (match endDate with
   | none => true
   | some d => decide (e.callDate ≤ d))

/-- `list_events`: filter the store, then `results.sort(key=(ticker, date))`
(a stable sort under the lexicographic order on the key). -/
def listEvents (store : List StoredEvent) (tickers : Option (List String))
    (startDate endDate : Option ℤ) : List StoredEvent :=
  (store.filter (eventKeep tickers startDate endDate)).mergeSort
    (fun a b => decide (a.ticker < b.ticker ∨
      (a.ticker = b.ticker ∧ a.callDate ≤ b.callDate)))

/-! ## Concrete evaluation lemmas for the end-to-end example -/

lemma exampleTokenLists :
    (splitSentences exampleTranscript).map tokenize =
      [["strong", "growth", "this", "quarter"],
       ["however", "risks", "and", "uncertainty", "remain"]] := by decide

lemma exampleSentence1Score :
    sentenceSentiment ["strong", "growth", "this", "quarter"] = 1 / 2 := by
  have hp : (["strong", "growth", "this", "quarter"] : List String).countP
      (fun t => t ∈ POSITIVE_WORDS) = 2 := by decide
  have hn : (["strong", "growth", "this", "quarter"] : List String).countP
      (fun t => t ∈ NEGATIVE_WORDS) = 0 := by decide
  rw [sentenceSentiment]
  simp [hp, hn]
  norm_num

lemma exampleSentence2Score :
    sentenceSentiment ["however", "risks", "and", "uncertainty", "remain"] = 0 := by
  have hp : (["however", "risks", "and", "uncertainty", "remain"] : List String).countP
      (fun t => t ∈ POSITIVE_WORDS) = 0 := by decide
  have hn : (["however", "risks", "and", "uncertainty", "remain"] : List String).countP
      (fun t => t ∈ NEGATIVE_WORDS) = 0 := by decide
  rw [sentenceSentiment]
  simp [hp, hn]

lemma exampleSentenceScores : sentenceScores exampleTranscript = [1 / 2, 0] := by
  rw [sentenceScores, exampleTokenLists]
  simp [exampleSentence1Score, exampleSentence2Score]

lemma exampleAllTokens :
    allTokens exampleTranscript =
      ["strong", "growth", "this", "quarter",
       "however", "risks", "and", "uncertainty", "remain"] := by decide

lemma exampleUncertaintyCount :
    (allTokens exampleTranscript).countP (fun t => t ∈ UNCERTAINTY_WORDS) = 2 := by
  decide

/-- Claim C1, as stated in the spec, is false on the code: the first sentence
"Strong growth this quarter" has 4 tokens of which `strong` and `growth` are
both positive, so its score is `2/4 = 1/2`, not `(1-0)/3`; the second sentence
has 5 tokens and no negative hit (`risks` is not in `NEGATIVE_WORDS`, only
`risk` is), so its score is `0`, not `(0-1)/5`; the transcript has 9 tokens,
not 8, so `uncertainty_score = 2/9`, not `0.25`. -/
theorem claim_C1_counterexample :
    sentenceScores exampleTranscript = [1 / 2, 0] ∧
    ¬ ((1 : ℚ) / 2 = 1 / 3 ∧ (0 : ℚ) = -(1 / 5)) ∧
    (computeFeatures exampleTranscript).token_count = 9 ∧ (9 : ℕ) ≠ 8 ∧
    (computeFeatures exampleTranscript).uncertainty_score = 2 / 9 ∧
    (2 : ℚ) / 9 ≠ 1 / 4 := by
  refine ⟨exampleSentenceScores, by norm_num, by decide, by decide, ?_, by norm_num⟩
  rw [computeFeatures]
  simp only [exampleAllTokens]
  rw [show (["strong", "growth", "this", "quarter", "however", "risks", "and",
      "uncertainty", "remain"] : List String).countP (fun t => t ∈ UNCERTAINTY_WORDS)
      = 2 by decide]
  norm_num

/-- Claim C1 (corrected): `compute_features` segments the example transcript
into exactly two sentences whose per-sentence scores are `(2-0)/4 = 1/2` and
`(0-0)/5 = 0`, yielding `sentiment_mean = 1/4`, and counts the tokens
`{risks, uncertainty}` as uncertainty hits among 9 total tokens, yielding
`uncertainty_score = 2/9`. -/
theorem claim_C1 :
    (splitSentences exampleTranscript).length = 2 ∧
    sentenceScores exampleTranscript = [1 / 2, 0] ∧
    (computeFeatures exampleTranscript).sentiment_mean = 1 / 4 ∧
    (computeFeatures exampleTranscript).token_count = 9 ∧
    (computeFeatures exampleTranscript).uncertainty_score = 2 / 9 := by
  refine ⟨by decide, exampleSentenceScores, ?_, by decide, ?_⟩
  · rw [computeFeatures]
    simp only [exampleSentenceScores]
    rw [listMean]
    norm_num
  · rw [computeFeatures]
    simp only [exampleAllTokens]
    rw [show (["strong", "growth", "this", "quarter", "however", "risks", "and",
        "uncertainty", "remain"] : List String).countP (fun t => t ∈ UNCERTAINTY_WORDS)
        = 2 by decide]
    norm_num

/-- Claim C8: `compute_features` applied to the empty string returns exactly
`token_count = 0`, `sentiment_mean = 0.0`, `sentiment_std = 0.0` and
`uncertainty_score = 0.0`, without signaling any error (`computeFeatures` is a
total function). -/
theorem claim_C8 :
    (computeFeatures "").token_count = 0 ∧
    (computeFeatures "").sentiment_mean = 0 ∧
    sentimentStd "" = 0 ∧
    (computeFeatures "").uncertainty_score = 0 := by
  have hs : sentenceScores "" = [] := by decide
  have ha : allTokens "" = [] := by decide
  have hvar : (computeFeatures "").sentiment_var = 0 := by
    rw [computeFeatures]
    simp [hs]
  refine ⟨by decide, ?_, ?_, ?_⟩
  · rw [computeFeatures]
    simp [hs]
  · rw [sentimentStd, hvar]
    simp
  · rw [computeFeatures]
    simp [ha]

/-! ## Bounds on the scorer -/

lemma sentenceSentiment_bounds (tokens : List String) :
    -1 ≤ sentenceSentiment tokens ∧ sentenceSentiment tokens ≤ 1 := by
  by_cases h : tokens.isEmpty
  · simp [sentenceSentiment, h]
  · rw [sentenceSentiment, if_neg h]
    have hlen : 0 < tokens.length := by
      cases tokens with
      | nil => simp at h
      | cons a l => simp
    have hp : tokens.countP (fun t => t ∈ POSITIVE_WORDS) ≤ tokens.length :=
      List.countP_le_length _
    have hn : tokens.countP (fun t => t ∈ NEGATIVE_WORDS) ≤ tokens.length :=
      List.countP_le_length _
    have hpQ : ((tokens.countP (fun t => t ∈ POSITIVE_WORDS) : ℚ)) ≤ (tokens.length : ℚ) := by
      exact_mod_cast hp
    have hnQ : ((tokens.countP (fun t => t ∈ NEGATIVE_WORDS) : ℚ)) ≤ (tokens.length : ℚ) := by
      exact_mod_cast hn
    have hp0 : (0 : ℚ) ≤ (tokens.countP (fun t => t ∈ POSITIVE_WORDS) : ℚ) := by positivity
    have hn0 : (0 : ℚ) ≤ (tokens.countP (fun t => t ∈ NEGATIVE_WORDS) : ℚ) := by positivity
    have hlenQ : (0 : ℚ) < (tokens.length : ℚ) := by exact_mod_cast hlen
    constructor
    · rw [le_div_iff₀ hlenQ]
      push_cast
      linarith
    · rw [div_le_iff₀ hlenQ]
      push_cast
      linarith

lemma listMean_bounds (xs : List ℚ) (a b : ℚ) (hne : xs ≠ [])
    (h : ∀ x ∈ xs, a ≤ x ∧ x ≤ b) : a ≤ listMean xs ∧ listMean xs ≤ b := by
  have hlen : 0 < xs.length := List.length_pos.mpr hne
  have hlenQ : (0 : ℚ) < (xs.length : ℚ) := by exact_mod_cast hlen
  have hsum_le : xs.sum ≤ xs.length • b :=
    List.sum_le_card_nsmul xs b (fun x hx => (h x hx).2)
  have hle_sum : xs.length • a ≤ xs.sum :=
    List.card_nsmul_le_sum xs a (fun x hx => (h x hx).1)
  rw [nsmul_eq_mul] at hsum_le hle_sum
  rw [listMean]
  constructor
  · rw [le_div_iff₀ hlenQ]
    linarith
  · rw [div_le_iff₀ hlenQ]
    linarith

/-- Claim C7: for every input, each per-sentence sentiment score lies in
`[-1, 1]` (hence `sentiment_mean`, their arithmetic mean, lies in `[-1, 1]`),
and `uncertainty_score` lies in `[0, 1]`. -/
theorem claim_C7 :
    (∀ tokens : List String,
      -1 ≤ sentenceSentiment tokens ∧ sentenceSentiment tokens ≤ 1) ∧
    (∀ text : String,
      -1 ≤ (computeFeatures text).sentiment_mean ∧
      (computeFeatures text).sentiment_mean ≤ 1 ∧
      0 ≤ (computeFeatures text).uncertainty_score ∧
      (computeFeatures text).uncertainty_score ≤ 1) := by
  refine ⟨sentenceSentiment_bounds, fun text => ?_⟩
  have hmean : -1 ≤ (computeFeatures text).sentiment_mean ∧
      (computeFeatures text).sentiment_mean ≤ 1 := by
    rw [computeFeatures]
    simp only
    by_cases h : (sentenceScores text).isEmpty
    · simp [h]
    · rw [if_neg h]
      apply listMean_bounds
      · intro hnil
        rw [hnil] at h
        simp at h
      · intro x hx
        rw [sentenceScores] at hx
        obtain ⟨ts, _, rfl⟩ := List.mem_map.mp hx
        exact sentenceSentiment_bounds ts
  have hunc : 0 ≤ (computeFeatures text).uncertainty_score ∧
      (computeFeatures text).uncertainty_score ≤ 1 := by
    rw [computeFeatures]
    simp only
    by_cases h : 0 < (allTokens text).length
    · rw [if_pos h]
      have hlenQ : (0 : ℚ) < ((allTokens text).length : ℚ) := by exact_mod_cast h
      have hcnt : (allTokens text).countP (fun t => t ∈ UNCERTAINTY_WORDS) ≤
          (allTokens text).length := List.countP_le_length _
      constructor
      · positivity
      · rw [div_le_one hlenQ]
        exact_mod_cast hcnt
    · rw [if_neg h]
      norm_num
  exact ⟨hmean.1, hmean.2, hunc.1, hunc.2⟩

/-! ## Return aligner lemmas -/

/-- On an already-ascending series, `df.sort_index()` is the identity. -/
lemma afterCallRows_of_sorted (rows : List PriceRow) (callDate : ℤ)
    (hsorted : rows.Pairwise (fun a b => a.date ≤ b.date)) :
    afterCallRows rows callDate =
      rows.filter (fun r => decide (callDate ≤ r.date)) := by
  rw [afterCallRows,
    List.mergeSort_of_sorted (hsorted.imp (fun hab => by simpa using hab))]

/-- Filtering the post-anchor frame by `date ≥ call_date + h` equals filtering
the whole sorted frame by it, because `h ≥ 0` makes the second predicate
imply the first. -/
lemma target_filter_eq (rows : List PriceRow) (callDate : ℤ) (h : ℕ) :
    (afterCallRows rows callDate).filter
        (fun r => decide (callDate + (h : ℤ) ≤ r.date)) =
      (rows.mergeSort (fun a b => decide (a.date ≤ b.date))).filter
        (fun r => decide (callDate + (h : ℤ) ≤ r.date)) := by
  rw [afterCallRows, List.filter_filter]
  apply List.filter_congr
  intro r _
  by_cases hr : callDate + (h : ℤ) ≤ r.date
  · have hcd : callDate ≤ r.date := by
      have : (0 : ℤ) ≤ (h : ℤ) := Int.natCast_nonneg h
      omega
    simp [hr, hcd]
  · simp [hr]

/-- As soon as some row lies on or after the call date, `get_simple_returns`
returns the per-horizon map; each entry is `horizonReturn`, which does not
depend on the other horizons. -/
lemma getSimpleReturns_eq_map (rows : List PriceRow) (callDate : ℤ)
    (horizons : List ℕ) (hne : afterCallRows rows callDate ≠ []) :
    getSimpleReturns rows callDate horizons =
      some (horizons.map (fun h => (h, horizonReturn rows callDate h))) := by
  have hrows : rows ≠ [] := by
    intro hnil
    apply hne
    rw [hnil]
    simp [afterCallRows]
  rw [getSimpleReturns, if_neg (by simpa using hrows)]
  cases hA : afterCallRows rows callDate with
  | nil => exact absurd hA hne
  | cons a rest => rfl

/-- In the sorted case, the per-horizon entry is the spec's formula: the first
row with date ≥ `call_date + h`, returned against the day-0 anchor close. -/
lemma horizonReturn_of_sorted (rows : List PriceRow) (callDate : ℤ) (h : ℕ)
    (hsorted : rows.Pairwise (fun a b => a.date ≤ b.date))
    (p0row : PriceRow)
    (hp0 : (rows.filter (fun r => decide (callDate ≤ r.date))).head? = some p0row) :
    horizonReturn rows callDate h =
      ((rows.filter (fun r => decide (callDate + (h : ℤ) ≤ r.date))).head?).map
        (fun t => (t.close - p0row.close) / p0row.close) := by
  have hac : afterCallRows rows callDate =
      rows.filter (fun r => decide (callDate ≤ r.date)) :=
    afterCallRows_of_sorted rows callDate hsorted
  have htf := target_filter_eq rows callDate h
  rw [List.mergeSort_of_sorted (hsorted.imp (fun hab => by simpa using hab))] at htf
  obtain ⟨ys, hys⟩ := List.head?_eq_some_iff.mp hp0
  rw [horizonReturn, hac, hys]
  rw [hac, hys] at htf
  rw [htf]

/-- Claim C2: for every ascending daily price series, the return aligner
anchors at the close of the first row with date ≥ `call_date`, and each
horizon `h` maps to `(price_at_target − price_at_day0) / price_at_day0` where
the target is the first row with date ≥ `call_date + h` (and to `none` when no
such row exists). -/
theorem claim_C2 (rows : List PriceRow) (callDate : ℤ) (horizons : List ℕ)
    (hsorted : rows.Pairwise (fun a b => a.date ≤ b.date))
    (p0row : PriceRow)
    (hp0 : (rows.filter (fun r => decide (callDate ≤ r.date))).head? = some p0row) :
    getSimpleReturns rows callDate horizons =
      some (horizons.map (fun (h : ℕ) =>
        (h, ((rows.filter (fun r => decide (callDate + (h : ℤ) ≤ r.date))).head?).map
          (fun t => (t.close - p0row.close) / p0row.close)))) := by
  have hne : afterCallRows rows callDate ≠ [] := by
    rw [afterCallRows_of_sorted rows callDate hsorted]
    intro hnil
    rw [hnil] at hp0
    simp at hp0
  rw [getSimpleReturns_eq_map rows callDate horizons hne]
  congr 1
  apply List.map_congr_left
  intro h _
  rw [horizonReturn_of_sorted rows callDate h hsorted p0row hp0]

/-- Witness for claim C2 at the spec's example: with call date day 0,
`return_1d = 2/100 = 1/50`, `return_3d = -1/100`, and the 5-day horizon has no
covering row, hence is absent. -/
theorem claim_C2_witness :
    getSimpleReturns exRows 0 [1, 3, 5] =
      some [(1, some (1 / 50)), (3, some (-(1 / 100))), (5, none)] := by
  rw [claim_C2 exRows 0 [1, 3, 5] (by decide) ⟨0, 100⟩ (by decide)]
  have h1 : exRows.filter (fun r => decide ((0 : ℤ) + ((1 : ℕ) : ℤ) ≤ r.date)) =
      [⟨1, 102⟩, ⟨3, 99⟩] := by decide
  have h3 : exRows.filter (fun r => decide ((0 : ℤ) + ((3 : ℕ) : ℤ) ≤ r.date)) =
      [⟨3, 99⟩] := by decide
  have h5 : exRows.filter (fun r => decide ((0 : ℤ) + ((5 : ℕ) : ℤ) ≤ r.date)) =
      [] := by decide
  simp only [List.map_cons, List.map_nil, h1, h3, h5, List.head?_cons, List.head?_nil,
    Option.map_some, Option.map_none]
  norm_num

/-- Claim C5: if the provider returns no data, or no row on or after the call
date, the aligner yields no result at all; otherwise every horizon resolves
independently — each entry of the result is `horizonReturn rows callDate h`,
a value that does not mention the other horizons, so failure of one horizon
never prevents the others from being computed. -/
theorem claim_C5 :
    (∀ (callDate : ℤ) (horizons : List ℕ),
      getSimpleReturns [] callDate horizons = none) ∧
    (∀ (rows : List PriceRow) (callDate : ℤ) (horizons : List ℕ),
      (∀ r ∈ rows, r.date < callDate) →
      getSimpleReturns rows callDate horizons = none) ∧
    (∀ (rows : List PriceRow) (callDate : ℤ) (horizons : List ℕ),
      (∃ r ∈ rows, callDate ≤ r.date) →
      getSimpleReturns rows callDate horizons =
        some (horizons.map (fun h => (h, horizonReturn rows callDate h)))) := by
  refine ⟨fun callDate horizons => rfl, ?_, ?_⟩
  · intro rows callDate horizons hall
    rcases List.eq_nil_or_concat rows with hnil | _
    · rw [hnil]; rfl
    rw [getSimpleReturns]
    by_cases hrows : rows.isEmpty
    · rw [if_pos hrows]
    · rw [if_neg hrows]
      have hA : afterCallRows rows callDate = [] := by
        rw [afterCallRows]
        rw [List.filter_eq_nil_iff]
        intro r hr
        have : r ∈ rows := List.mem_mergeSort.mp hr
        simpa using Int.not_le.mpr (hall r this)
      rw [hA]
  · intro rows callDate horizons hex
    apply getSimpleReturns_eq_map
    obtain ⟨r, hr, hle⟩ := hex
    intro hnil
    have : r ∈ afterCallRows rows callDate := by
      rw [afterCallRows]
      exact List.mem_filter.mpr ⟨List.mem_mergeSort.mpr hr, by simpa using hle⟩
    rw [hnil] at this
    simp at this

/-- Witness for claim C5: a series strictly before the call date yields no
result at all, and a series with an anchor yields the independent per-horizon
map. -/
theorem claim_C5_witness :
    getSimpleReturns [⟨0, 5⟩] 1 [1, 3] = none ∧
    getSimpleReturns exRows 0 [5] =
      some [(5, horizonReturn exRows 0 5)] := by
  constructor
  · exact claim_C5.2.1 [⟨0, 5⟩] 1 [1, 3] (by decide)
  · exact claim_C5.2.2 exRows 0 [5] ⟨⟨0, 100⟩, by decide, by decide⟩

lemma exReturns1 : getSimpleReturns exRows 0 [1] = some [(1, some (1 / 50))] := by
  rw [getSimpleReturns_eq_map exRows 0 [1]
    (by rw [afterCallRows_of_sorted exRows 0 (by decide)]; decide)]
  rw [List.map_cons, List.map_nil,
    horizonReturn_of_sorted exRows 0 1 (by decide) ⟨0, 100⟩ (by decide)]
  rw [show exRows.filter (fun r => decide ((0 : ℤ) + ((1 : ℕ) : ℤ) ≤ r.date)) =
    [⟨1, 102⟩, ⟨3, 99⟩] by decide]
  simp
  norm_num

lemma exAnchor : anchorClose exRows 0 = some 100 := by
  rw [anchorClose, afterCallRows_of_sorted exRows 0 (by decide)]
  decide

/-- A present horizon entry is covered: `(h, some r)` can only appear in the
result when some row of the series has date ≥ `call_date + h`. -/
lemma presentEntry_covering (rows : List PriceRow) (callDate : ℤ)
    (horizons : List ℕ) (m : List (ℕ × Option ℚ)) (h : ℕ) (r : ℚ)
    (hm : getSimpleReturns rows callDate horizons = some m)
    (hentry : (h, some r) ∈ m) :
    ∃ row ∈ rows, callDate + (h : ℤ) ≤ row.date := by
  rw [getSimpleReturns] at hm
  by_cases hrows : rows.isEmpty
  · rw [if_pos hrows] at hm; exact absurd hm (by simp)
  rw [if_neg hrows] at hm
  cases hA : afterCallRows rows callDate with
  | nil => rw [hA] at hm; exact absurd hm (by simp)
  | cons p0row rest =>
    rw [hA] at hm
    have hmap : m = horizons.map (fun h => (h, horizonReturn rows callDate h)) :=
      (Option.some.injEq _ _ ▸ hm).symm
    rw [hmap] at hentry
    obtain ⟨h', _, hpair⟩ := List.mem_map.mp hentry
    have hh : h' = h := congrArg Prod.fst hpair
    have hval : horizonReturn rows callDate h = some r := by
      rw [← hh]
      exact congrArg Prod.snd hpair
    rw [horizonReturn, hA] at hval
    obtain ⟨t, ht, _⟩ := Option.map_eq_some'.mp hval
    have htmem : t ∈ (p0row :: rest).filter
        (fun r => decide (callDate + (h : ℤ) ≤ r.date)) :=
      List.mem_of_mem_head? (by simp [ht])
    rw [← hA] at htmem
    have := List.mem_filter.mp htmem
    refine ⟨t, ?_, by simpa using this.2⟩
    have : t ∈ afterCallRows rows callDate := this.1
    rw [afterCallRows] at this
    exact List.mem_mergeSort.mp (List.mem_filter.mp this).1

/-- When the day-0 anchor close `p0` is nonzero, every present horizon value
is the genuine quotient against it: `r = (ph − p0) / p0` with
`r * p0 = ph − p0`, where `ph` is the close of a covering row. -/
lemma presentEntry_quotient (rows : List PriceRow) (callDate : ℤ)
    (horizons : List ℕ) (p0 : ℚ) (m : List (ℕ × Option ℚ)) (h : ℕ) (r : ℚ)
    (hanch : anchorClose rows callDate = some p0) (hp0 : p0 ≠ 0)
    (hm : getSimpleReturns rows callDate horizons = some m)
    (hentry : (h, some r) ∈ m) :
    ∃ t ∈ rows, callDate + (h : ℤ) ≤ t.date ∧
      r = (t.close - p0) / p0 ∧ r * p0 = t.close - p0 := by
  rw [getSimpleReturns] at hm
  by_cases hrows : rows.isEmpty
  · rw [if_pos hrows] at hm; exact absurd hm (by simp)
  rw [if_neg hrows] at hm
  cases hA : afterCallRows rows callDate with
  | nil => rw [hA] at hm; exact absurd hm (by simp)
  | cons p0row rest =>
    rw [hA] at hm
    have hmap : m = horizons.map (fun h => (h, horizonReturn rows callDate h)) :=
      (Option.some.injEq _ _ ▸ hm).symm
    rw [hmap] at hentry
    obtain ⟨h', _, hpair⟩ := List.mem_map.mp hentry
    have hh : h' = h := congrArg Prod.fst hpair
    have hval : horizonReturn rows callDate h = some r := by
      rw [← hh]; exact congrArg Prod.snd hpair
    have hp0row : p0row.close = p0 := by
      rw [anchorClose, hA] at hanch
      simpa using hanch
    rw [horizonReturn, hA] at hval
    obtain ⟨t, ht, hr⟩ := Option.map_eq_some'.mp hval
    have htmem : t ∈ (p0row :: rest).filter
        (fun r => decide (callDate + (h : ℤ) ≤ r.date)) :=
      List.mem_of_mem_head? (by simp [ht])
    rw [← hA] at htmem
    have hmem := List.mem_filter.mp htmem
    have htrows : t ∈ rows := by
      have := hmem.1
      rw [afterCallRows] at this
      exact List.mem_mergeSort.mp (List.mem_filter.mp this).1
    refine ⟨t, htrows, by simpa using hmem.2, ?_, ?_⟩
    · rw [← hr, hp0row]
    · rw [← hr, hp0row, div_mul_cancel₀ _ hp0]

/-- Claim C6, as stated, is false on the code: "a ReturnSet never contains
NaN" fails when the anchor and target closes are both `0`.  On the series
with closes `[0 @ day0, 0 @ day1]` and call date day 0, the anchor close is
`0` and `get_simple_returns` still stores a value for the 1-day horizon: the
result of dividing `0 − 0` by the zero anchor, which in the program's float
semantics is `0.0 / 0.0 = NaN`, stored with no guard. -/
theorem claim_C6_counterexample :
    anchorClose nanRows 0 = some 0 ∧
    getSimpleReturns nanRows 0 [1] = some [(1, some ((0 - 0) / (0 : ℚ)))] := by
  constructor
  · rw [anchorClose, afterCallRows_of_sorted nanRows 0 (by decide)]
    decide
  · rw [getSimpleReturns_eq_map nanRows 0 [1]
      (by rw [afterCallRows_of_sorted nanRows 0 (by decide)]; decide)]
    rw [List.map_cons, List.map_nil,
      horizonReturn_of_sorted nanRows 0 1 (by decide) ⟨0, 0⟩ (by decide)]
    rw [show nanRows.filter
      (fun r => decide ((0 : ℤ) + ((1 : ℕ) : ℤ) ≤ r.date)) = [⟨1, 0⟩] by decide]
    simp

/-- Claim C6 (corrected): a horizon entry carries a value only if a trading
day on or after `call_date + horizon` exists in the supplied series, with
unavailability represented by the `none` value rather than a sentinel number;
and for every series whose day-0 anchor close is nonzero the ReturnSet never
contains NaN — every present value is the well-defined quotient
`(ph − p0) / p0`, satisfying `r * p0 = ph − p0`.  (The nonzero-anchor
hypothesis is forced by the counterexample: with a zero anchor the code
stores the unguarded `0/0`.) -/
theorem claim_C6 :
    (∀ (rows : List PriceRow) (callDate : ℤ) (horizons : List ℕ)
      (m : List (ℕ × Option ℚ)) (h : ℕ) (r : ℚ),
      getSimpleReturns rows callDate horizons = some m → (h, some r) ∈ m →
      ∃ row ∈ rows, callDate + (h : ℤ) ≤ row.date) ∧
    (∀ (rows : List PriceRow) (callDate : ℤ) (horizons : List ℕ) (p0 : ℚ)
      (m : List (ℕ × Option ℚ)) (h : ℕ) (r : ℚ),
      anchorClose rows callDate = some p0 → p0 ≠ 0 →
      getSimpleReturns rows callDate horizons = some m → (h, some r) ∈ m →
      ∃ t ∈ rows, callDate + (h : ℤ) ≤ t.date ∧
        r = (t.close - p0) / p0 ∧ r * p0 = t.close - p0) :=
  ⟨presentEntry_covering, presentEntry_quotient⟩

/-- Witness for claim C6 at the example series: the present 3-day entry is
covered by the row at day 3, and against the nonzero anchor `100` the present
1-day value `1/50` is the genuine quotient. -/
theorem claim_C6_witness :
    (∃ row ∈ exRows, (0 : ℤ) + ((3 : ℕ) : ℤ) ≤ row.date) ∧
    (∃ t ∈ exRows, (0 : ℤ) + ((1 : ℕ) : ℤ) ≤ t.date ∧
      (1 / 50 : ℚ) = (t.close - 100) / 100 ∧
      (1 / 50 : ℚ) * 100 = t.close - 100) := by
  constructor
  · apply claim_C6.1 exRows 0 [3] [(3, horizonReturn exRows 0 3)] 3 (-(1 / 100))
    · apply getSimpleReturns_eq_map
      rw [afterCallRows_of_sorted exRows 0 (by decide)]
      decide
    · have : horizonReturn exRows 0 3 = some (-(1 / 100)) := by
        rw [horizonReturn_of_sorted exRows 0 3 (by decide) ⟨0, 100⟩ (by decide)]
        rw [show exRows.filter (fun r => decide ((0 : ℤ) + ((3 : ℕ) : ℤ) ≤ r.date)) =
          [⟨3, 99⟩] by decide]
        simp
        norm_num
      rw [this]
      exact List.mem_singleton.mpr rfl
  · exact claim_C6.2 exRows 0 [1] 100 [(1, some (1 / 50))] 1 (1 / 50) exAnchor
      (by norm_num) exReturns1 (List.mem_singleton.mpr rfl)

/-! ## Division by the day-0 anchor (C9) -/

/-- Claim C9: the aligner divides by the day-0 anchor without any nonzero
guard.  For every series whose anchor close `p0` is nonzero, every present
horizon value is the genuine quotient `(ph − p0) / p0` — i.e. it satisfies
`r * p0 = ph − p0`, so no division by zero occurs.  The nonzero hypothesis is
required: on a series whose anchor close is `0`, the code still reaches the
division and stores the value of `(5 − 0) / 0` (the junk value of division by
zero in exact arithmetic; in floats this is an unguarded `inf`/`nan`). -/
theorem claim_C9 :
    (∀ (rows : List PriceRow) (callDate : ℤ) (horizons : List ℕ) (p0 : ℚ)
      (m : List (ℕ × Option ℚ)) (h : ℕ) (r : ℚ),
      anchorClose rows callDate = some p0 → p0 ≠ 0 →
      getSimpleReturns rows callDate horizons = some m → (h, some r) ∈ m →
      ∃ t ∈ rows, callDate + (h : ℤ) ≤ t.date ∧
        r = (t.close - p0) / p0 ∧ r * p0 = t.close - p0) ∧
    (anchorClose zeroAnchorRows 0 = some 0 ∧
      getSimpleReturns zeroAnchorRows 0 [1] =
        some [(1, some ((5 - 0) / (0 : ℚ)))]) := by
  constructor
  · exact presentEntry_quotient
  · constructor
    · rw [anchorClose, afterCallRows_of_sorted zeroAnchorRows 0 (by decide)]
      decide
    · rw [getSimpleReturns_eq_map zeroAnchorRows 0 [1]
        (by rw [afterCallRows_of_sorted zeroAnchorRows 0 (by decide)]; decide)]
      rw [List.map_cons, List.map_nil,
        horizonReturn_of_sorted zeroAnchorRows 0 1 (by decide) ⟨0, 0⟩ (by decide)]
      rw [show zeroAnchorRows.filter
        (fun r => decide ((0 : ℤ) + ((1 : ℕ) : ℤ) ≤ r.date)) = [⟨1, 5⟩] by decide]
      simp

/-- Witness for claim C9 at the example series: the present 1-day return
`1/50` really is the quotient against the nonzero anchor `100`, satisfying
`r * 100 = 102 − 100`. -/
theorem claim_C9_witness :
    ∃ t ∈ exRows, (0 : ℤ) + ((1 : ℕ) : ℤ) ≤ t.date ∧
      (1 / 50 : ℚ) = (t.close - 100) / 100 ∧ (1 / 50 : ℚ) * 100 = t.close - 100 :=
  claim_C9.1 exRows 0 [1] 100 [(1, some (1 / 50))] 1 (1 / 50) exAnchor
    (by norm_num) exReturns1 (List.mem_singleton.mpr rfl)

/-! ## Backtest aggregator: correlation (C3) -/

/-- Claim C3: the Pearson correlation between the sentiment series and the
3-day-return series over the filtered event set is absent exactly when fewer
than 2 valid pairs exist or when either series has zero variance (zero
variance is `Σ (x − mean)² = 0`).  In exact arithmetic a quotient of reals is
always a real number, so the code's `isnan` normalization — the claim's third
disjunct — can never fire and is subsumed by these two guards; in the
degenerate cases the result is `none`, never `0`, NaN or any sentinel. -/
theorem claim_C3 (events : List (ℚ × Option ℚ)) :
    backtestCorr events = none ↔
      ((filterPairs events).length < 2 ∨
        sqDev ((filterPairs events).map Prod.fst) = 0 ∨
        sqDev ((filterPairs events).map Prod.snd) = 0) := by
  rw [backtestCorr, pearsonCorr]
  by_cases h1 : ((filterPairs events).map Prod.fst).length < 2
  · rw [if_pos h1]
    exact iff_of_true rfl (Or.inl (by simpa using h1))
  · rw [if_neg h1]
    by_cases h2 : sqDev ((filterPairs events).map Prod.fst) = 0 ∨
        sqDev ((filterPairs events).map Prod.snd) = 0
    · rw [if_pos h2]
      exact iff_of_true rfl (Or.inr h2)
    · rw [if_neg h2]
      apply iff_of_false (by simp)
      rintro (hl | hd)
      · exact h1 (by simpa using hl)
      · exact h2 hd

/-! ## Backtest aggregator: median split (C4) -/

lemma bucketStats_count (b : List (ℚ × ℚ)) : (bucketStats b).count = b.length := by
  rw [bucketStats]
  by_cases hb : b.isEmpty
  · rw [if_pos hb]
    cases b with
    | nil => rfl
    | cons x l => simp at hb
  · rw [if_neg hb]

lemma sortedPairs_length (pairs : List (ℚ × ℚ)) :
    (sortedPairs pairs).length = pairs.length := by
  rw [sortedPairs, List.length_mergeSort]

lemma lowBucket_length (pairs : List (ℚ × ℚ)) :
    (lowBucket pairs).length = pairs.length / 2 := by
  rw [lowBucket, List.length_take, sortedPairs_length]
  exact Nat.min_eq_left (Nat.div_le_self _ _)

lemma highBucket_length (pairs : List (ℚ × ℚ)) :
    (highBucket pairs).length = pairs.length - pairs.length / 2 := by
  rw [highBucket, List.length_drop, sortedPairs_length]

/-- Claim C4: for every non-empty filtered event set of size `n`, the median
split sorts the `(sentiment, return)` pairs by sentiment ascending with a
stable sort (the sorted list is a permutation, is pairwise ordered, and ties
keep their input order: for every key the sublist of pairs with that key is
unchanged), takes the first `⌊n/2⌋` pairs as the low bucket and the remaining
`n − ⌊n/2⌋` as the high bucket, so the bucket counts always sum to `n`; a
non-empty bucket reports the arithmetic mean of its return values and an
empty bucket reports count 0 with an absent average. -/
theorem claim_C4 (pairs : List (ℚ × ℚ)) (hne : pairs ≠ []) :
    List.Perm (sortedPairs pairs) pairs ∧
    (sortedPairs pairs).Pairwise (fun a b => a.1 ≤ b.1) ∧
    (∀ k : ℚ, (sortedPairs pairs).filter (fun p => decide (p.1 = k)) =
      pairs.filter (fun p => decide (p.1 = k))) ∧
    lowBucket pairs ++ highBucket pairs = sortedPairs pairs ∧
    (bucketStats (lowBucket pairs)).count = pairs.length / 2 ∧
    (bucketStats (highBucket pairs)).count = pairs.length - pairs.length / 2 ∧
    (bucketStats (lowBucket pairs)).count +
      (bucketStats (highBucket pairs)).count = pairs.length ∧
    (lowBucket pairs ≠ [] →
      (bucketStats (lowBucket pairs)).avg_return_3d =
        some (listMean ((lowBucket pairs).map Prod.snd))) ∧
    bucketStats [] = ⟨0, none⟩ ∧
    (bucketStats (highBucket pairs)).avg_return_3d =
      some (listMean ((highBucket pairs).map Prod.snd)) := by
  have htrans : ∀ (a b c : ℚ × ℚ), decide (a.1 ≤ b.1) → decide (b.1 ≤ c.1) →
      decide (a.1 ≤ c.1) := by
    intro a b c hab hbc
    simp at hab hbc ⊢
    exact hab.trans hbc
  have htotal : ∀ (a b : ℚ × ℚ),
      decide (a.1 ≤ b.1) || decide (b.1 ≤ a.1) := by
    intro a b
    simp [le_total]
  have hperm : List.Perm (sortedPairs pairs) pairs := List.mergeSort_perm pairs _
  have hsorted : (sortedPairs pairs).Pairwise (fun a b => a.1 ≤ b.1) := by
    have := List.sorted_mergeSort htrans htotal pairs
    exact this.imp (fun h => by simpa using h)
  have hstable : ∀ k : ℚ, (sortedPairs pairs).filter (fun p => decide (p.1 = k)) =
      pairs.filter (fun p => decide (p.1 = k)) := by
    intro k
    have hApairwise : (pairs.filter (fun p => decide (p.1 = k))).Pairwise
        (fun a b => decide (a.1 ≤ b.1)) := by
      apply List.pairwise_of_forall_mem_list
      intro a ha b hb
      have ha' : a.1 = k := by simpa using (List.mem_filter.mp ha).2
      have hb' : b.1 = k := by simpa using (List.mem_filter.mp hb).2
      simp [ha', hb']
    have hsub : List.Sublist (pairs.filter (fun p => decide (p.1 = k)))
        (sortedPairs pairs) :=
      List.sublist_mergeSort htrans htotal hApairwise (List.filter_sublist pairs)
    have hsub2 : List.Sublist (pairs.filter (fun p => decide (p.1 = k)))
        ((sortedPairs pairs).filter (fun p => decide (p.1 = k))) := by
      have := hsub.filter (fun p => decide (p.1 = k))
      rw [List.filter_filter] at this
      simpa only [Bool.and_self] using this
    have hpermf : List.Perm ((sortedPairs pairs).filter (fun p => decide (p.1 = k)))
        (pairs.filter (fun p => decide (p.1 = k))) := hperm.filter _
    exact (hsub2.eq_of_length hpermf.length_eq.symm).symm
  have hsplit : lowBucket pairs ++ highBucket pairs = sortedPairs pairs :=
    List.take_append_drop _ _
  have hlow := lowBucket_length pairs
  have hhigh := highBucket_length pairs
  have hhigh_ne : highBucket pairs ≠ [] := by
    intro hnil
    have h0 : (highBucket pairs).length = 0 := by rw [hnil]; rfl
    rw [hhigh] at h0
    have hn : 0 < pairs.length := List.length_pos.mpr hne
    have := Nat.div_lt_self hn (by norm_num : 1 < 2)
    omega
  refine ⟨hperm, hsorted, hstable, hsplit, ?_, ?_, ?_, ?_, rfl, ?_⟩
  · rw [bucketStats_count, hlow]
  · rw [bucketStats_count, hhigh]
  · rw [bucketStats_count, bucketStats_count, hlow, hhigh]
    have := Nat.div_le_self pairs.length 2
    omega
  · intro hlownil
    rw [bucketStats, if_neg (by simpa using hlownil)]
  · rw [bucketStats, if_neg (by simpa using hhigh_ne)]

/-- Witness for claim C4 at a concrete three-event set with a sentiment tie:
the low bucket receives `⌊3/2⌋ = 1` pair, the high bucket the remaining 2,
and the counts sum to 3. -/
theorem claim_C4_witness :
    (bucketStats (lowBucket [(1, 2), (0, 5), (1, 4)])).count = 1 ∧
    (bucketStats (highBucket [(1, 2), (0, 5), (1, 4)])).count = 2 ∧
    (bucketStats (lowBucket [(1, 2), (0, 5), (1, 4)])).count +
      (bucketStats (highBucket [(1, 2), (0, 5), (1, 4)])).count = 3 := by
  have h := claim_C4 [(1, 2), (0, 5), (1, 4)] (by simp)
  exact ⟨h.2.2.2.2.1, h.2.2.2.2.2.1, h.2.2.2.2.2.2.1⟩

/-! ## Store listing (C10) -/

/-- Claim C10: calling `list_events` with an empty ticker list behaves
identically to passing no ticker filter at all — the empty list is falsy in
`ticker_set = {...} if tickers else None`, so the set comprehension is never
built — and every stored event within the date range is returned rather than
none. -/
theorem claim_C10 (store : List StoredEvent) (startDate endDate : Option ℤ) :
    listEvents store (some []) startDate endDate =
      listEvents store none startDate endDate ∧
    (∀ e, e ∈ listEvents store (some []) startDate endDate ↔
      (e ∈ store ∧
        (match startDate with | none => True | some d => d ≤ e.callDate) ∧
        (match endDate with | none => True | some d => e.callDate ≤ d))) := by
  constructor
  · rfl
  · intro e
    rw [listEvents, List.mem_mergeSort, List.mem_filter]
    have hkeep : eventKeep (some []) startDate endDate e =
        ((match startDate with
          | none => true
          | some d => decide (d ≤ e.callDate)) &&
         (match endDate with
          | none => true
          | some d => decide (e.callDate ≤ d))) := by
      rfl
    rw [hkeep]
    cases startDate <;> cases endDate <;> simp

/-- Witness for claim C10 at a two-event store with no date bounds: the empty
ticker list returns the whole store, exactly as the absent filter does. -/
theorem claim_C10_witness :
    listEvents [⟨"AAPL", 0, "a"⟩, ⟨"MSFT", 1, "b"⟩] (some []) none none =
      listEvents [⟨"AAPL", 0, "a"⟩, ⟨"MSFT", 1, "b"⟩] none none none ∧
    (⟨"AAPL", 0, "a"⟩ : StoredEvent) ∈
      listEvents [⟨"AAPL", 0, "a"⟩, ⟨"MSFT", 1, "b"⟩] (some []) none none := by
  have h := claim_C10 [⟨"AAPL", 0, "a"⟩, ⟨"MSFT", 1, "b"⟩] none none
  exact ⟨h.1, (h.2 ⟨"AAPL", 0, "a"⟩).mpr ⟨by simp, trivial, trivial⟩⟩

end Kuona
